import Mathlib

/-!
Shallow embedding of `src/utils/registry.ts` (denoland.id).

The file models the registry-resolution module: URL builders, the
branch/tag response transformer and fetcher, the metadata orchestrator
`fetchModuleMetadata`, and the content-type classifier.  External
collaborators (the `fetchModule` lookup service, HTTP fetches keyed by
URL, and Node's `Buffer` decoder) are modelled as fields of a `World`
record, so every function is a pure Lean function of the world and its
arguments.  JavaScript exceptions (TypeError from destructuring `null`
or calling a missing method, and `new Error("invalid module type")`)
are modelled with `Except JsError`.

JavaScript regular expressions are modelled character-exactly:
`RegExp.exec` is unanchored (it searches for the leftmost match), `+`
is greedy with backtracking, `.` matches any character except the four
line terminators, and a failed match returns `null`, so destructuring
its result throws a TypeError.
-/

namespace Registry

/-- JavaScript exceptions raised by the code under scrutiny. -/
inductive JsError where
  | typeError
  | invalidModuleType
  deriving DecidableEq, Repr

/-- Provider tag of a module.  At runtime the `type` field is a string,
so besides the two known providers we keep an `other` case carrying the
raw string, matching the `default:` branches in the source. -/
inductive ModuleType where
  | gitHub
  | gitLab
  | other (s : String)
  deriving DecidableEq, Repr

/-- What the external `fetchModule` lookup returns for a known name:
`{ type, org, repo }`. -/
structure ModuleInfo where
  type : ModuleType
  org : String
  repo : String
  deriving DecidableEq, Repr

/-- The `DenoModule` value built by the orchestrator:
`{ name: moduleName, ...module, repoUrl: createRepoUrl(module) }`. -/
structure DenoModule where
  name : String
  type : ModuleType
  org : String
  repo : String
  repoUrl : String
  deriving DecidableEq, Repr

/-- One entry of a GitHub contents response (`TreeFile`): the fields the
code reads (`name`, `type`, `content`, `encoding`, `download_url`). -/
structure TreeFile where
  name : String
  type : String
  content : String
  encoding : Option String
  download_url : String
  deriving DecidableEq, Repr

/-- A decoded contents-API body: either a single file descriptor or a
directory listing (a JSON array). -/
inductive TreeJson where
  | file (f : TreeFile)
  | listing (l : List TreeFile)
  deriving DecidableEq, Repr

/-- An HTTP response from the contents endpoint: `resp.ok` selects
between the decoded tree body and the raw error body. -/
inductive TreeResp where
  | ok (t : TreeJson)
  | err (body : String)
  deriving DecidableEq, Repr

/-- A decoded branch/tag-endpoint body: either a JSON array of objects
with a `name` field (GitHub shape, kept as the projected names), or an
object with `Branches` and `Tags` arrays (GitLab shape). -/
inductive BtData where
  | arr (names : List String)
  | obj (branches : List String) (tags : List String)
  deriving DecidableEq, Repr

/-- The external collaborators, keyed by URL where the code fetches by
URL: the module-lookup service, the JSON bodies returned by the
repository endpoint (only its `default_branch` field is read; `none`
models an absent field), the branch/tag endpoints, the contents
endpoint, raw-text fetches of `download_url`s, and Node's
`Buffer.from(content, encoding).toString()` decoder. -/
structure World where
  fetchModule : String → Option ModuleInfo
  repoJson : String → Option String
  btJson : String → BtData
  treeResp : String → TreeResp
  rawText : String → String
  bufferDecode : String → String → String

/-- The full `ResolutionResult` object assembled on the success path. -/
structure ResolutionResult where
  meta : DenoModule
  branchtag : Option String
  branchtags : Option (List String)
  segments : List String
  breadcrumbs : Option (List (String × String))
  path : String
  tree : Option TreeJson
  readme : Option String
  content : Option String
  sourceUrl : Option String
  errors : Option String
  deriving DecidableEq, Repr

/-- What `fetchModuleMetadata` returns: the minimal `{ segments }`
object when the module lookup finds nothing, or the full result. -/
inductive MetadataResult where
  | notFound (segments : List String)
  | found (r : ResolutionResult)
  deriving DecidableEq, Repr

/-! ### URL builders (`createRepoUrl`, `createBranchtagUrls`) -/

/-- `createRepoUrl({type, org, repo})` from the source: switch on the
provider type, throwing `Error("invalid module type")` otherwise. -/
def createRepoUrl (m : ModuleInfo) : Except JsError String :=
  match m.type with
  | .gitHub => .ok ("https://github.com/" ++ m.org ++ "/" ++ m.repo)
  | .gitLab => .ok ("https://gitlab.com/" ++ m.org ++ "/" ++ m.repo)
  | .other _ => .error .invalidModuleType

/-- `createBranchtagUrls({type, org, repo})` from the source. -/
def createBranchtagUrls (m : ModuleInfo) : Except JsError (List String) :=
  match m.type with
  | .gitHub =>
      .ok ["https://api.github.com/repos/" ++ m.org ++ "/" ++ m.repo ++ "/branches",
           "https://api.github.com/repos/" ++ m.org ++ "/" ++ m.repo ++ "/tags"]
  | .gitLab => .ok ["https://gitlab.com/" ++ m.org ++ "/" ++ m.repo ++ "/refs"]
  | .other _ => .error .invalidModuleType

/-! ### Branchtag transformer and fetcher -/

/-- `transformBranchtags({data, type})`: GitHub projects an array of
`{name}` objects to the names (`data.map` on a non-array throws a
TypeError); GitLab spreads `data.Branches` and `data.Tags`
(spreading a missing field of an array value throws a TypeError). -/
def transformBranchtags (type : ModuleType) (data : BtData) :
    Except JsError (List String) :=
  match type, data with
  | .gitHub, .arr names => .ok names
  | .gitHub, .obj _ _ => .error .typeError
  | .gitLab, .obj branches tags => .ok (branches ++ tags)
  | .gitLab, .arr _ => .error .typeError
  | .other _, _ => .error .invalidModuleType

/-- The `for (const url of urls)` accumulation loop of
`fetchModuleBranchtags`: `refs.push(...transformBranchtags({data, type}))`
per URL, in order. -/
def btLoop (w : World) (type : ModuleType) :
    List String → List String → Except JsError (List String)
  | [], refs => .ok refs
  | url :: rest, refs =>
      match transformBranchtags type (w.btJson url) with
      | .error e => .error e
      | .ok ts => btLoop w type rest (refs ++ ts)

/-- `fetchModuleBranchtags({type, org, repo})` from the source. -/
def fetchModuleBranchtags (w : World) (m : ModuleInfo) :
    Except JsError (List String) :=
  match createBranchtagUrls m with
  | .error e => .error e
  | .ok urls => btLoop w m.type urls []

/-! ### The segment-0 regular expression

`/([0-9a-z-_]+)(?:@(.+))?/.exec(segments[0])`: the character class is
digits, lowercase letters, `-` and `_`; `exec` finds the leftmost
position where the class matches, takes the maximal run there, and then
optionally consumes `@` followed by a maximal nonempty run of
non-line-terminator characters. -/

/-- Membership in the character class `[0-9a-z-_]`. -/
def isIdentChar (c : Char) : Bool :=
  (('0' ≤ c && c ≤ '9') || ('a' ≤ c && c ≤ 'z') || c == '-' || c == '_')

/-- JavaScript line terminators, which `.` does not match. -/
def isLineTerm (c : Char) : Bool :=
  c == '\n' || c == '\r' || c == '\u2028' || c == '\u2029'

/-- `exec` of the segment-0 regex on a character list: `none` models a
`null` result (no match anywhere); otherwise the pair of capture
group 1 and the optional capture group 2. -/
def execIdent : List Char → Option (List Char × Option (List Char))
  | [] => none
  | c :: cs =>
      if isIdentChar c then
        some (c :: cs.takeWhile isIdentChar,
          match cs.dropWhile isIdentChar with
          | '@' :: r =>
              let tag := r.takeWhile (fun x => !isLineTerm x)
              if tag.isEmpty then none else some tag
          | _ => none)
      else execIdent cs

/-- Lines 80–81 of the source: run the regex on segment 0 and
destructure `[, moduleName, branchtag = null]`; destructuring a `null`
match result throws a TypeError. -/
def parseSegment0 (s : String) : Except JsError (String × Option String) :=
  match execIdent s.data with
  | none => .error .typeError
  | some (n, t) => .ok (String.mk n, t.map String.mk)

/-- `segments[0]` in JavaScript: reading index 0 of an empty array
yields `undefined`, which `RegExp.exec` coerces to the string
`"undefined"`. -/
def seg0 (segments : List String) : String :=
  match segments with
  | [] => "undefined"
  | s :: _ => s

/-! ### Orchestrator helpers -/

/-- The GitHub repository endpoint used for default-branch discovery. -/
def ghRepoApiUrl (m : ModuleInfo) : String :=
  "https://api.github.com/repos/" ++ m.org ++ "/" ++ m.repo

/-- Lines 99–110: when no branchtag was parsed, GitHub takes the
repository endpoint's `default_branch` field, GitLab is an unfinished
stub (stays `null`), and the `else` branch sets `"master"`. -/
def resolveBranchtag (w : World) (m : ModuleInfo) :
    Option String → Option String
  | some bt => some bt
  | none =>
      match m.type with
      | .gitHub => w.repoJson (ghRepoApiUrl m)
      | .gitLab => none
      | .other _ => some "master"

/-- Breadcrumbs (lines 118–122): `sx = ["x", ...segments]` mapped with
index to `[sx[i], "/" + sx.slice(0, i + 1).join("/")]`. -/
def breadcrumbsOf (segments : List String) : List (String × String) :=
  let sx := "x" :: segments
  sx.enum.map (fun p =>
    (sx.getD p.1 "", "/" ++ String.intercalate "/" (sx.take (p.1 + 1))))

/-- Line 125: `path = "/" + segments.slice(1).join("/")`. -/
def pathOf (segments : List String) : String :=
  "/" ++ String.intercalate "/" (segments.drop 1)

/-- Template-literal interpolation of the (possibly absent) branchtag:
on the only path that interpolates it while it can be absent (the
GitHub contents URL) the absent value is `undefined`, which a template
literal renders as `"undefined"`. -/
def optStr : Option String → String
  | some s => s
  | none => "undefined"

/-- The GitHub contents URL of line 131. -/
def ghTreeUrl (m : ModuleInfo) (path : String) (bt : Option String) : String :=
  "https://api.github.com/repos/" ++ m.org ++ "/" ++ m.repo ++ "/contents" ++
    path ++ "?ref=" ++ optStr bt

/-- Comparison used by the directory sort of line 151:
`a.type.localeCompare(b.type)`, modelled as the standard lexicographic
order on the `type` strings (on the provider's plain lowercase-ASCII
type values locale collation agrees with code-point order). -/
def typeLe (a b : TreeFile) : Prop := a.type ≤ b.type

instance : DecidableRel typeLe := fun a b =>
  inferInstanceAs (Decidable (a.type ≤ b.type))

instance : IsTotal TreeFile typeLe := ⟨fun a b => le_total a.type b.type⟩

instance : IsTrans TreeFile typeLe :=
  ⟨fun _ _ _ hab hbc => le_trans hab hbc⟩

/-- `tree.sort((a, b) => a.type.localeCompare(b.type))`: JavaScript's
`Array.prototype.sort` is guaranteed stable, so it computes the stable
sort by the comparator, realized here by insertion sort. -/
def sortByType (l : List TreeFile) : List TreeFile :=
  List.insertionSort typeLe l

/-- Line 154: `tree.find((t) => t.name.toLowerCase() === "readme.md")`. -/
def findReadme (l : List TreeFile) : Option TreeFile :=
  l.find? (fun t => t.name.toLower == "readme.md")

/-- Lines 170–172: `file.encoding ? Buffer.from(file.content,
file.encoding).toString() : file.content` (an empty-string encoding is
falsy). -/
def decodeContent (w : World) (f : TreeFile) : String :=
  match f.encoding with
  | some e => if e = "" then f.content else w.bufferDecode e f.content
  | none => f.content

/-! ### The orchestrator `fetchModuleMetadata` -/

/-- `fetchModuleMetadata({segments, isApi})`, lines 76–198 of the
source, with every conditional and fetch in program order. -/
def fetchModuleMetadata (w : World) (segments : List String)
    (isApi : Bool) : Except JsError MetadataResult :=
  match parseSegment0 (seg0 segments) with
  | .error e => .error e
  | .ok (moduleName, parsedBt) =>
    match w.fetchModule moduleName with
    | none => .ok (.notFound segments)
    | some module =>
      match createRepoUrl module with
      | .error e => .error e
      | .ok repoUrl =>
        let meta : DenoModule :=
          { name := moduleName, type := module.type, org := module.org,
            repo := module.repo, repoUrl := repoUrl }
        let branchtag := resolveBranchtag w module parsedBt
        let btsBc : Except JsError
            (Option (List String) × Option (List (String × String))) :=
          if isApi then .ok (none, none)
          else
            match fetchModuleBranchtags w module with
            | .error e => .error e
            | .ok bts => .ok (some bts, some (breadcrumbsOf segments))
        match btsBc with
        | .error e => .error e
        | .ok (branchtags, breadcrumbs) =>
          let path := pathOf segments
          let treeErrors : Option TreeJson × Option String :=
            match module.type with
            | .gitHub =>
                match w.treeResp (ghTreeUrl module path branchtag) with
                | .ok t => (some t, none)
                | .err body => (none, some body)
            | _ => (none, none)
          let final : Option TreeJson × Option String × Option String ×
              Option String :=
            match treeErrors.1 with
            | none => (none, none, none, none)
            | some (.listing l) =>
                let sorted := sortByType l
                let readme :=
                  match module.type with
                  | .gitHub =>
                      (findReadme sorted).map (fun f => w.rawText f.download_url)
                  | _ => none
                (some (.listing sorted), readme, none, none)
            | some (.file f) =>
                match module.type with
                | .gitHub =>
                    (some (.file f), none, some (decodeContent w f),
                     some f.download_url)
                | _ => (some (.file f), none, none, none)
          .ok (.found
            { meta := meta
              branchtag := branchtag
              branchtags := branchtags
              segments := segments
              breadcrumbs := breadcrumbs
              path := path
              tree := final.1
              readme := final.2.1
              content := final.2.2.1
              sourceUrl := final.2.2.2
              errors := treeErrors.2 })

/-! ### Content-type classifier (`getContentType`)

`/.+\.(.+)$/.exec(name)[1]`: the match needs a dot preceded by at least
one non-line-terminator character and followed, up to the very end of
the string, by a nonempty run of non-line-terminator characters; greedy
backtracking selects the rightmost such dot.  A `null` match makes the
`[1]` access throw a TypeError. -/

/-- Whether index `i` is a dot the extension regex can match at:
`s[i] = '.'`, some `.`-matchable character right before it, and a
nonempty `.`-matchable tail after it reaching the end of the string. -/
def validDot (s : List Char) (i : Nat) : Bool :=
  (i != 0) && decide (i + 1 < s.length) && (s.getD i ' ' == '.') &&
    !isLineTerm (s.getD (i - 1) ' ') &&
    (s.drop (i + 1)).all (fun c => !isLineTerm c)

/-- The index of the dot the regex `/.+\.(.+)$/` captures after:
the greatest valid dot index, `none` when the regex fails to match. -/
def extIdx (s : List Char) : Option Nat :=
  ((List.range s.length).filter (validDot s)).getLast?

/-- The `switch` of lines 201–208 on the captured extension. -/
def contentTypeOf (ext : String) : String :=
  if ext = "js" then "application/javascript"
  else if ext = "ts" then "application/typescript"
  else "text/plain"

/-- `getContentType(name)` from the source; `.error` models the
TypeError thrown by `exec(...)[1]` when the regex does not match. -/
def getContentType (name : String) : Except JsError String :=
  match extIdx name.data with
  | none => .error .typeError
  | some i => .ok (contentTypeOf (String.mk (name.data.drop (i + 1))))

/-! ### Concrete worlds and auxiliary definitions used by the
verification -/

/-- Decidable equality for the `Except` results of the embedded
functions, so closed facts can be settled by `decide`. -/
instance {ε α : Type} [DecidableEq ε] [DecidableEq α] :
    DecidableEq (Except ε α) := fun a b =>
  match a, b with
  | .ok x, .ok y => decidable_of_iff (x = y) (by simp)
  | .error x, .error y => decidable_of_iff (x = y) (by simp)
  | .ok _, .error _ => isFalse (by simp)
  | .error _, .ok _ => isFalse (by simp)

def wNone : World :=
  { fetchModule := fun _ => none
    repoJson := fun _ => none
    btJson := fun _ => .obj [] []
    treeResp := fun _ => .err "e"
    rawText := fun _ => ""
    bufferDecode := fun _ c => c }

/-- C3 counterexample world: the lookup returns a module of an unknown
provider type. -/
def wOther : World :=
  { fetchModule := fun n => if n = "foo" then some ⟨.other "Bitbucket", "o", "r"⟩ else none
    repoJson := fun _ => none
    btJson := fun _ => .obj [] []
    treeResp := fun _ => .err "e"
    rawText := fun _ => ""
    bufferDecode := fun _ c => c }

def wGhErr : World :=
  { fetchModule := fun n => if n = "foo" then some ⟨.gitHub, "o", "r"⟩ else none
    repoJson := fun _ => some "main"
    btJson := fun _ => .arr ["main"]
    treeResp := fun _ => .err "Not Found"
    rawText := fun _ => ""
    bufferDecode := fun _ c => c }

def wDup : World :=
  { fetchModule := fun _ => none
    repoJson := fun _ => none
    btJson := fun u =>
      if u = "https://api.github.com/repos/o/r/branches" then .arr ["main", "dev"]
      else .arr ["v1", "main"]
    treeResp := fun _ => .err "e"
    rawText := fun _ => ""
    bufferDecode := fun _ c => c }

def wTree : World :=
  { fetchModule := fun n => if n = "foo" then some ⟨.gitHub, "o", "r"⟩ else none
    repoJson := fun _ => some "main"
    btJson := fun _ => .arr ["main"]
    treeResp := fun _ => .ok (.listing
      [⟨"a.ts", "file", "", none, "u2"⟩, ⟨"src", "dir", "", none, "u1"⟩,
       ⟨"README.md", "file", "", none, "u3"⟩])
    rawText := fun _ => "readme text"
    bufferDecode := fun _ c => c }

/-- A GitLab world for the C9 witness (no tree fetch, so the run
normalizes by `rfl`). -/
def wBc : World :=
  { fetchModule := fun n => if n = "foo" then some ⟨.gitLab, "o", "r"⟩ else none
    repoJson := fun _ => none
    btJson := fun _ => .obj ["main"] ["v1"]
    treeResp := fun _ => .err "e"
    rawText := fun _ => ""
    bufferDecode := fun _ c => c }

/-- The result of the concrete C9 witness run. -/
def rBc : ResolutionResult :=
  { meta := { name := "foo", type := .gitLab, org := "o", repo := "r",
              repoUrl := "https://gitlab.com/o/r" }
    branchtag := none
    branchtags := some ["main", "v1"]
    segments := ["foo", "bar", "baz"]
    breadcrumbs := some [("x", "/x"), ("foo", "/x/foo"), ("bar", "/x/foo/bar"),
      ("baz", "/x/foo/bar/baz")]
    path := "/bar/baz"
    tree := none
    readme := none
    content := none
    sourceUrl := none
    errors := none }

/-- The claim's reading of the segment-0 pattern as a full-string
match `identifier(@branchtag)`: a nonempty identifier of class
characters, optionally followed by `@` and a nonempty branchtag the
regex `.+` could match. -/
def specSeg0Pattern (s : String) : Bool :=
  (!(s.data.takeWhile (fun c => c != '@')).isEmpty &&
    (s.data.takeWhile (fun c => c != '@')).all isIdentChar) &&
  (match s.data.dropWhile (fun c => c != '@') with
   | [] => true
   | _ :: tag => !tag.isEmpty && tag.all (fun c => !isLineTerm c))

/-- The corrected failure condition of `getContentType`: some dot is
preceded by a `.`-matchable character and followed by a nonempty
`.`-matchable run reaching the end of the name. -/
def HasExtension (cs : List Char) : Prop :=
  ∃ xs p ys, cs = xs ++ p :: '.' :: ys ∧ isLineTerm p = false ∧
    ys ≠ [] ∧ ys.all (fun c => !isLineTerm c) = true

/-! ### Theorems -/

/-- C8: `createRepoUrl` and `createBranchtagUrls` are pure functions fully
determined by the reference: a GitHub reference yields the canonical
`github.com/org/repo` URL and the branches-then-tags API endpoints, a
GitLab reference yields `gitlab.com/org/repo` and its single combined
refs endpoint, and any other provider type makes both functions throw
the invalid-module-type error every time. -/
theorem urlBuilders_characterization (m : ModuleInfo) :
    (m.type = .gitHub →
      createRepoUrl m = .ok ("https://github.com/" ++ m.org ++ "/" ++ m.repo) ∧
      createBranchtagUrls m = .ok
        ["https://api.github.com/repos/" ++ m.org ++ "/" ++ m.repo ++ "/branches",
         "https://api.github.com/repos/" ++ m.org ++ "/" ++ m.repo ++ "/tags"]) ∧
    (m.type = .gitLab →
      createRepoUrl m = .ok ("https://gitlab.com/" ++ m.org ++ "/" ++ m.repo) ∧
      createBranchtagUrls m = .ok
        ["https://gitlab.com/" ++ m.org ++ "/" ++ m.repo ++ "/refs"]) ∧
    (∀ s, m.type = .other s →
      createRepoUrl m = .error .invalidModuleType ∧
      createBranchtagUrls m = .error .invalidModuleType) := by
  refine ⟨fun h => ?_, fun h => ?_, fun s h => ?_⟩ <;>
    simp [createRepoUrl, createBranchtagUrls, h]

theorem urlBuilders_witness :
    createRepoUrl ⟨.gitHub, "o", "r"⟩ = .ok "https://github.com/o/r" ∧
    createBranchtagUrls ⟨.other "Bitbucket", "o", "r"⟩ = .error .invalidModuleType := by
  constructor
  · have h := (urlBuilders_characterization ⟨.gitHub, "o", "r"⟩).1 rfl
    simpa using h.1
  · have h := (urlBuilders_characterization ⟨.other "Bitbucket", "o", "r"⟩).2.2 "Bitbucket" rfl
    exact h.2

/-- C5: when the module lookup finds no module for the parsed module
name, `fetchModuleMetadata` returns exactly the minimal result carrying
only the original segments, and raises no error. -/
theorem moduleNotFound_minimal (w : World) (segments : List String)
    (isApi : Bool) (name : String) (bt : Option String)
    (hparse : parseSegment0 (seg0 segments) = .ok (name, bt))
    (hmod : w.fetchModule name = none) :
    fetchModuleMetadata w segments isApi = .ok (.notFound segments) := by
  simp [fetchModuleMetadata, hparse, hmod]

theorem moduleNotFound_minimal_witness :
    fetchModuleMetadata wNone ["std", "fs"] false = .ok (.notFound ["std", "fs"]) :=
  moduleNotFound_minimal wNone ["std", "fs"] false "std" none rfl rfl

/-- C10: with an empty segments list, segment 0 is `undefined`, which
the regex coerces to the string "undefined"; parsing therefore succeeds
with moduleName "undefined" and no branchtag, and the module lookup
proceeds with that name instead of rejecting the input. -/
theorem emptySegments_parse_undefined :
    seg0 [] = "undefined" ∧
    parseSegment0 (seg0 []) = .ok ("undefined", none) ∧
    (∀ (w : World) (isApi : Bool), w.fetchModule "undefined" = none →
      fetchModuleMetadata w [] isApi = .ok (.notFound [])) := by
  refine ⟨rfl, rfl, fun w isApi hmod => ?_⟩
  have hp : parseSegment0 (seg0 []) = .ok ("undefined", none) := rfl
  simp [fetchModuleMetadata, hp, hmod]

theorem emptySegments_witness :
    fetchModuleMetadata wNone [] false = .ok (.notFound []) :=
  emptySegments_parse_undefined.2.2 wNone false rfl

/-- C3 (amended): when segment 0 carried no explicit branchtag, a
GitHub module resolves the branchtag to the repository endpoint's
`default_branch` field and a GitLab module leaves it unresolved; for a
module of any other provider type `fetchModuleMetadata` throws the
invalid-module-type error while building `repoUrl`, before the
branchtag default runs, so the "master" default of the claim is
unreachable. -/
theorem branchtag_resolution (w : World) (segments : List String)
    (isApi : Bool) (name : String) (m : ModuleInfo)
    (hparse : parseSegment0 (seg0 segments) = .ok (name, none))
    (hmod : w.fetchModule name = some m) :
    (m.type = .gitHub → ∀ r,
      fetchModuleMetadata w segments isApi = .ok (.found r) →
      r.branchtag = w.repoJson (ghRepoApiUrl m)) ∧
    (m.type = .gitLab → ∀ r,
      fetchModuleMetadata w segments isApi = .ok (.found r) →
      r.branchtag = none) ∧
    (∀ s, m.type = .other s →
      fetchModuleMetadata w segments isApi = .error .invalidModuleType) := by
  refine ⟨fun htype r hr => ?_, fun htype r hr => ?_, fun s htype => ?_⟩
  · simp only [fetchModuleMetadata, hparse, hmod, createRepoUrl, htype] at hr
    split at hr
    · exact absurd hr (by simp)
    · rename_i heq
      simp only [Except.ok.injEq, MetadataResult.found.injEq] at hr
      subst hr
      simp [resolveBranchtag, htype]
  · simp only [fetchModuleMetadata, hparse, hmod, createRepoUrl, htype] at hr
    split at hr
    · exact absurd hr (by simp)
    · simp only [Except.ok.injEq, MetadataResult.found.injEq] at hr
      subst hr
      simp [resolveBranchtag, htype]
  · simp [fetchModuleMetadata, hparse, hmod, createRepoUrl, htype]

/-- C3 counterexample: for a module of an unknown provider type the
call throws instead of returning a result whose branchtag is
"master". -/
theorem branchtag_master_cex :
    fetchModuleMetadata wOther ["foo"] true = .error .invalidModuleType ∧
    ∀ r : ResolutionResult,
      fetchModuleMetadata wOther ["foo"] true ≠ .ok (.found r) := by
  constructor
  · rfl
  · intro r h
    rw [show fetchModuleMetadata wOther ["foo"] true = .error .invalidModuleType from rfl] at h
    exact absurd h (by simp)

theorem branchtag_resolution_witness :
    fetchModuleMetadata wOther ["foo"] true = .error .invalidModuleType :=
  (branchtag_resolution wOther ["foo"] true "foo" ⟨.other "Bitbucket", "o", "r"⟩
    rfl rfl).2.2 "Bitbucket" rfl

/-- C4: for a GitHub module, when the repository-contents request for
the tree fails (non-ok response), `fetchModuleMetadata` does not throw:
the upstream error body is captured into the result's `errors` field,
the tree stays null, and a full `ResolutionResult` is still
returned. -/
theorem treeFailure_captured (w : World) (segments : List String)
    (isApi : Bool) (name : String) (bt : Option String) (m : ModuleInfo)
    (ebody : String)
    (hparse : parseSegment0 (seg0 segments) = .ok (name, bt))
    (hmod : w.fetchModule name = some m)
    (htype : m.type = .gitHub)
    (hbts : isApi = true ∨ ∃ l, fetchModuleBranchtags w m = .ok l)
    (htree : w.treeResp (ghTreeUrl m (pathOf segments)
        (resolveBranchtag w m bt)) = .err ebody) :
    ∃ r, fetchModuleMetadata w segments isApi = .ok (.found r) ∧
      r.errors = some ebody ∧ r.tree = none ∧ r.readme = none ∧
      r.content = none ∧ r.sourceUrl = none := by
  rcases hbts with hapi | ⟨bts, hbts⟩
  · subst hapi
    simp only [fetchModuleMetadata, hparse, hmod, createRepoUrl, htype, htree, if_true]
    exact ⟨_, rfl, rfl, rfl, rfl, rfl, rfl⟩
  · by_cases hapi : isApi
    · simp only [fetchModuleMetadata, hparse, hmod, createRepoUrl, htype, htree, hapi, if_true]
      exact ⟨_, rfl, rfl, rfl, rfl, rfl, rfl⟩
    · simp only [fetchModuleMetadata, hparse, hmod, createRepoUrl, htype, htree, hbts,
        hapi, if_false, Bool.false_eq_true, ite_false]
      exact ⟨_, rfl, rfl, rfl, rfl, rfl, rfl⟩

theorem treeFailure_witness :
    ∃ r, fetchModuleMetadata wGhErr ["foo", "a"] false = .ok (.found r) ∧
      r.errors = some "Not Found" ∧ r.tree = none ∧ r.readme = none ∧
      r.content = none ∧ r.sourceUrl = none :=
  treeFailure_captured wGhErr ["foo", "a"] false "foo" none ⟨.gitHub, "o", "r"⟩
    "Not Found" rfl rfl rfl (.inr ⟨["main", "main"], rfl⟩) rfl

/-- Reduction lemmas for the `Except` monad on constructors. -/
theorem exceptBind_ok {ε α β : Type} (a : α) (f : α → Except ε β) :
    (Except.ok a : Except ε α) >>= f = f a := rfl

theorem exceptBind_error {ε α β : Type} (e : ε) (f : α → Except ε β) :
    (Except.error e : Except ε α) >>= f = .error e := rfl

theorem exceptMap_ok {ε α β : Type} (f : α → β) (a : α) :
    Except.map f (Except.ok a : Except ε α) = .ok (f a) := rfl

theorem exceptMap_error {ε α β : Type} (f : α → β) (e : ε) :
    Except.map f (Except.error e : Except ε α) = .error e := rfl

theorem exceptPure {ε α : Type} (a : α) :
    (pure a : Except ε α) = .ok a := rfl

/-- loop lemma for C6 -/
theorem btLoop_eq (w : World) (type : ModuleType) :
    ∀ (urls acc : List String),
      btLoop w type urls acc =
        (urls.mapM (fun u => transformBranchtags type (w.btJson u))).map
          (fun ls => acc ++ ls.flatten)
  | [], acc => by
      simp only [btLoop, List.mapM_nil, exceptPure, exceptMap_ok, List.flatten_nil,
        List.append_nil]
  | url :: rest, acc => by
      simp only [btLoop, List.mapM_cons]
      cases h : transformBranchtags type (w.btJson url) with
      | error e => simp only [exceptBind_error, exceptMap_error]
      | ok ts =>
          simp only [exceptBind_ok]
          rw [btLoop_eq w type rest (acc ++ ts)]
          cases h2 : rest.mapM (fun u => transformBranchtags type (w.btJson u)) with
          | error e => simp only [h2, exceptBind_error, exceptMap_error]
          | ok ls =>
              simp only [h2, exceptBind_ok, exceptPure, exceptMap_ok, List.flatten_cons,
                List.append_assoc]

/-- C6: `fetchModuleBranchtags` returns exactly the concatenation, in
URL order (for GitHub: all branches first, then all tags), of the
transformer's output for each response, with no deduplication — a ref
name present in both lists appears twice. -/
theorem branchtags_concatenation (w : World) (m : ModuleInfo) :
    (∀ urls, createBranchtagUrls m = .ok urls →
      fetchModuleBranchtags w m =
        (urls.mapM (fun u => transformBranchtags m.type (w.btJson u))).map
          (fun ls => ls.flatten)) ∧
    (m.type = .gitHub → ∀ bs ts,
      transformBranchtags m.type (w.btJson
        ("https://api.github.com/repos/" ++ m.org ++ "/" ++ m.repo ++ "/branches")) = .ok bs →
      transformBranchtags m.type (w.btJson
        ("https://api.github.com/repos/" ++ m.org ++ "/" ++ m.repo ++ "/tags")) = .ok ts →
      fetchModuleBranchtags w m = .ok (bs ++ ts)) := by
  constructor
  · intro urls hurls
    simp only [fetchModuleBranchtags, hurls, btLoop_eq, List.nil_append]
  · intro htype bs ts hbs hts
    have hurls : createBranchtagUrls m =
        .ok ["https://api.github.com/repos/" ++ m.org ++ "/" ++ m.repo ++ "/branches",
             "https://api.github.com/repos/" ++ m.org ++ "/" ++ m.repo ++ "/tags"] := by
      simp [createBranchtagUrls, htype]
    simp only [fetchModuleBranchtags, hurls, btLoop, hbs, hts, List.nil_append]

theorem branchtags_concatenation_witness :
    fetchModuleBranchtags wDup ⟨.gitHub, "o", "r"⟩ = .ok ["main", "dev", "v1", "main"] :=
  (branchtags_concatenation wDup ⟨.gitHub, "o", "r"⟩).2 rfl
    ["main", "dev"] ["v1", "main"] rfl rfl

/-- Filtering by a fixed `type` value commutes with `orderedInsert`. -/
theorem filter_orderedInsert (s : String) (a : TreeFile) :
    ∀ l : List TreeFile,
      (List.orderedInsert typeLe a l).filter (fun t => t.type == s) =
        if a.type == s then a :: l.filter (fun t => t.type == s)
        else l.filter (fun t => t.type == s)
  | [] => by
      by_cases has : a.type == s <;>
        simp [List.orderedInsert, List.filter, has]
  | b :: l => by
      simp only [List.orderedInsert]
      by_cases hab : typeLe a b
      · rw [if_pos hab]
        by_cases has : a.type == s <;> simp [List.filter_cons, has]
      · rw [if_neg hab]
        have hlt : b.type < a.type := lt_of_not_le hab
        have hba : b.type ≠ a.type := ne_of_lt hlt
        rw [List.filter_cons, filter_orderedInsert s a l]
        by_cases has : a.type == s
        · have hbs : (b.type == s) = false := by
            simp only [beq_iff_eq] at has ⊢
            rw [has] at hba
            exact beq_eq_false_iff_ne.mpr hba
          simp [has, hbs, List.filter_cons]
        · by_cases hbs : b.type == s <;> simp [has, hbs, List.filter_cons]

/-- Filtering by a fixed `type` value is unchanged by `sortByType`:
entries of equal type keep their original relative order. -/
theorem filter_sortByType (s : String) :
    ∀ l : List TreeFile,
      (sortByType l).filter (fun t => t.type == s) =
        l.filter (fun t => t.type == s)
  | [] => rfl
  | a :: l => by
      simp only [sortByType, List.insertionSort] at *
      rw [filter_orderedInsert]
      have ih := filter_sortByType s l
      simp only [sortByType] at ih
      rw [ih]
      by_cases has : a.type == s <;> simp [has, List.filter_cons]

/-- C7: whenever the fetched tree is a directory listing, the tree in
the returned result is that listing sorted by comparing the entries'
`type` fields in the standard lexical string order, and entries with
equal `type` fields keep their original relative order. -/
theorem treeListing_sorted (w : World) (segments : List String)
    (isApi : Bool) (name : String) (bt : Option String) (m : ModuleInfo)
    (l : List TreeFile)
    (hparse : parseSegment0 (seg0 segments) = .ok (name, bt))
    (hmod : w.fetchModule name = some m)
    (htype : m.type = .gitHub)
    (hbts : isApi = true ∨ ∃ bts, fetchModuleBranchtags w m = .ok bts)
    (htree : w.treeResp (ghTreeUrl m (pathOf segments)
        (resolveBranchtag w m bt)) = .ok (.listing l)) :
    ∃ r sorted, fetchModuleMetadata w segments isApi = .ok (.found r) ∧
      r.tree = some (.listing sorted) ∧
      List.Sorted typeLe sorted ∧
      ∀ s, sorted.filter (fun t => t.type == s) =
        l.filter (fun t => t.type == s) := by
  have hprops : List.Sorted typeLe (sortByType l) ∧
      ∀ s, (sortByType l).filter (fun t => t.type == s) =
        l.filter (fun t => t.type == s) :=
    ⟨List.sorted_insertionSort typeLe l, fun s => filter_sortByType s l⟩
  rcases hbts with hapi | ⟨bts, hbtsok⟩
  · subst hapi
    simp only [fetchModuleMetadata, hparse, hmod, createRepoUrl, htype, htree, if_true]
    exact ⟨_, sortByType l, rfl, rfl, hprops.1, hprops.2⟩
  · by_cases hapi : isApi
    · simp only [fetchModuleMetadata, hparse, hmod, createRepoUrl, htype, htree, hapi,
        if_true]
      exact ⟨_, sortByType l, rfl, rfl, hprops.1, hprops.2⟩
    · simp only [fetchModuleMetadata, hparse, hmod, createRepoUrl, htype, htree, hbtsok,
        hapi, if_false, Bool.false_eq_true, ite_false]
      exact ⟨_, sortByType l, rfl, rfl, hprops.1, hprops.2⟩

theorem treeListing_sorted_witness :
    ∃ r sorted, fetchModuleMetadata wTree ["foo"] false = .ok (.found r) ∧
      r.tree = some (.listing sorted) ∧
      List.Sorted typeLe sorted ∧
      ∀ s, sorted.filter (fun t => t.type == s) =
        ([⟨"a.ts", "file", "", none, "u2"⟩, ⟨"src", "dir", "", none, "u1"⟩,
          ⟨"README.md", "file", "", none, "u3"⟩] : List TreeFile).filter
          (fun t => t.type == s) :=
  treeListing_sorted wTree ["foo"] false "foo" none ⟨.gitHub, "o", "r"⟩ _
    rfl rfl rfl (.inr ⟨["main", "main"], rfl⟩) rfl

/-- Breadcrumb bridge lemma: the indexed map over `sx.enum` is the map
over the prefix indices. -/
theorem breadcrumbsOf_eq (segments : List String) :
    breadcrumbsOf segments =
      (List.range (segments.length + 1)).map (fun i =>
        (("x" :: segments).getD i "",
         "/" ++ String.intercalate "/" (("x" :: segments).take (i + 1)))) := by
  simp only [breadcrumbsOf, List.enum_eq_zip_range]
  have h := List.map_fst_zip (List.range ("x" :: segments).length) ("x" :: segments)
    (by simp)
  calc ((List.range ("x" :: segments).length).zip ("x" :: segments)).map
        (fun p => (("x" :: segments).getD p.1 "",
          "/" ++ String.intercalate "/" (("x" :: segments).take (p.1 + 1))))
      = (((List.range ("x" :: segments).length).zip ("x" :: segments)).map
          Prod.fst).map (fun i => (("x" :: segments).getD i "",
          "/" ++ String.intercalate "/" (("x" :: segments).take (i + 1)))) := by
        rw [List.map_map]; rfl
    _ = (List.range (segments.length + 1)).map (fun i =>
          (("x" :: segments).getD i "",
           "/" ++ String.intercalate "/" (("x" :: segments).take (i + 1)))) := by
        rw [h]; simp

/-- C9: with `isApi` false and a successful resolution, the breadcrumbs
have exactly one entry per prefix of `"x" :: segments`, each pairing
the segment label at that index with the slash-joined href of all
segments up to and including that index. -/
theorem breadcrumbs_spec (w : World) (segments : List String)
    (r : ResolutionResult) (_hne : segments ≠ [])
    (hrun : fetchModuleMetadata w segments false = .ok (.found r)) :
    r.breadcrumbs = some ((List.range (segments.length + 1)).map (fun i =>
      (("x" :: segments).getD i "",
       "/" ++ String.intercalate "/" (("x" :: segments).take (i + 1))))) := by
  rw [← breadcrumbsOf_eq]
  cases hp : parseSegment0 (seg0 segments) with
  | error e =>
      simp only [fetchModuleMetadata, hp] at hrun
      exact absurd hrun (by simp)
  | ok v =>
    obtain ⟨name, bt⟩ := v
    cases hm : w.fetchModule name with
    | none =>
        simp only [fetchModuleMetadata, hp, hm] at hrun
        exact absurd hrun (by simp)
    | some mo =>
      cases hc : createRepoUrl mo with
      | error e =>
          simp only [fetchModuleMetadata, hp, hm, hc] at hrun
          exact absurd hrun (by simp)
      | ok ru =>
        cases hb : fetchModuleBranchtags w mo with
        | error e =>
            simp only [fetchModuleMetadata, hp, hm, hc, hb, Bool.false_eq_true,
              if_false, ite_false] at hrun
            exact absurd hrun (by simp)
        | ok bts =>
            simp only [fetchModuleMetadata, hp, hm, hc, hb, Bool.false_eq_true,
              if_false, ite_false, Except.ok.injEq, MetadataResult.found.injEq] at hrun
            subst hrun
            rfl

theorem breadcrumbs_spec_witness :
    fetchModuleMetadata wBc ["foo", "bar", "baz"] false = .ok (.found rBc) ∧
    rBc.breadcrumbs = some [("x", "/x"), ("foo", "/x/foo"), ("bar", "/x/foo/bar"),
      ("baz", "/x/foo/bar/baz")] := by
  have hrun : fetchModuleMetadata wBc ["foo", "bar", "baz"] false =
      .ok (.found rBc) := by rfl
  refine ⟨hrun, ?_⟩
  rw [breadcrumbs_spec wBc ["foo", "bar", "baz"] rBc (by simp) hrun]
  rfl

theorem takeWhile_all_eq {α : Type} (p : α → Bool) :
    ∀ l : List α, l.all p = true → l.takeWhile p = l
  | [], _ => rfl
  | a :: l, h => by
      simp only [List.all_cons, Bool.and_eq_true] at h
      simp [List.takeWhile_cons, h.1, takeWhile_all_eq p l h.2]

theorem dropWhile_all_eq {α : Type} (p : α → Bool) :
    ∀ l : List α, l.all p = true → l.dropWhile p = []
  | [], _ => rfl
  | a :: l, h => by
      simp only [List.all_cons, Bool.and_eq_true] at h
      simp [List.dropWhile_cons, h.1, dropWhile_all_eq p l h.2]

theorem takeWhile_append_all {α : Type} (p : α → Bool) :
    ∀ l r : List α, l.all p = true →
      (l ++ r).takeWhile p = l ++ r.takeWhile p
  | [], _, _ => rfl
  | a :: l, r, h => by
      simp only [List.all_cons, Bool.and_eq_true] at h
      simp [List.takeWhile_cons, h.1, takeWhile_append_all p l r h.2]

theorem dropWhile_append_all {α : Type} (p : α → Bool) :
    ∀ l r : List α, l.all p = true →
      (l ++ r).dropWhile p = r.dropWhile p
  | [], _, _ => rfl
  | a :: l, r, h => by
      simp only [List.all_cons, Bool.and_eq_true] at h
      simp [List.dropWhile_cons, h.1, dropWhile_append_all p l r h.2]

theorem dropWhile_head_false {α : Type} (p : α → Bool) :
    ∀ (l : List α) (a : α) (l' : List α),
      l.dropWhile p = a :: l' → p a = false
  | [], a, l', h => by simp [List.dropWhile] at h
  | b :: l, a, l', h => by
      by_cases hb : p b
      · rw [List.dropWhile_cons, if_pos hb] at h
        exact dropWhile_head_false p l a l' h
      · rw [List.dropWhile_cons, if_neg hb] at h
        injection h with h1 h2
        subst h1
        simpa using hb

theorem execIdent_eq_none :
    ∀ cs : List Char, execIdent cs = none ↔
      cs.all (fun c => !isIdentChar c) = true
  | [] => by simp [execIdent]
  | c :: cs => by
      by_cases h : isIdentChar c
      · simp [execIdent, h]
      · simp [execIdent, h, execIdent_eq_none cs]

theorem identChar_ne_at {c : Char} (h : isIdentChar c = true) :
    (c != '@') = true := by
  rw [bne_iff_ne]
  intro hc
  subst hc
  exact absurd h (by decide)

/-- C1 (amended): parsing of segment 0 throws exactly when the segment
contains no character of the class `[0-9a-z-_]` at all — the regex is
unanchored, so a segment that fails the full identifier pattern can
still parse; when the segment does match the full pattern
`identifier(@branchtag)`, moduleName is the identifier and branchtag is
the optional suffix after `@` (null when absent). -/
theorem parseSegment0_amended (s : String) :
    ((∃ e, parseSegment0 s = .error e) ↔
      s.data.all (fun c => !isIdentChar c) = true) ∧
    (specSeg0Pattern s = true →
      parseSegment0 s = .ok (String.mk (s.data.takeWhile (fun c => c != '@')),
        match s.data.dropWhile (fun c => c != '@') with
        | [] => none
        | _ :: tag => some (String.mk tag))) := by
  constructor
  · constructor
    · rintro ⟨e, he⟩
      unfold parseSegment0 at he
      cases hex : execIdent s.data with
      | none => exact (execIdent_eq_none s.data).mp hex
      | some v => rw [hex] at he; exact absurd he (by simp)
    · intro h
      refine ⟨.typeError, ?_⟩
      unfold parseSegment0
      rw [(execIdent_eq_none s.data).mpr h]
  · intro hm
    have heq : s.data = s.data.takeWhile (fun c => c != '@') ++
        s.data.dropWhile (fun c => c != '@') :=
      (List.takeWhile_append_dropWhile _ _).symm
    unfold specSeg0Pattern at hm
    cases hrest : s.data.dropWhile (fun c => c != '@') with
    | nil =>
        rw [hrest] at hm heq
        simp only [Bool.and_eq_true, Bool.not_eq_true', List.isEmpty_eq_false,
          List.append_nil] at hm heq
        obtain ⟨⟨hne, hall⟩, -⟩ := hm
        cases hname : s.data.takeWhile (fun c => c != '@') with
        | nil => exact absurd hname hne
        | cons n0 ntl =>
            rw [hname] at heq hall
            simp only [List.all_cons, Bool.and_eq_true] at hall
            unfold parseSegment0
            rw [heq]
            simp only [execIdent, hall.1, if_true, reduceIte]
            rw [takeWhile_all_eq isIdentChar ntl hall.2,
              dropWhile_all_eq isIdentChar ntl hall.2]
            rfl
    | cons r0 tag =>
        have hr0 : r0 = '@' := by
          have := dropWhile_head_false (fun c => c != '@') s.data r0 tag hrest
          simpa using this
        subst hr0
        rw [hrest] at hm heq
        simp only [Bool.and_eq_true, Bool.not_eq_true', List.isEmpty_eq_false] at hm
        obtain ⟨⟨hne, hall⟩, htagne, htagall⟩ := hm
        cases hname : s.data.takeWhile (fun c => c != '@') with
        | nil => exact absurd hname hne
        | cons n0 ntl =>
            rw [hname] at heq hall
            simp only [List.all_cons, Bool.and_eq_true] at hall
            unfold parseSegment0
            rw [heq]
            simp only [List.cons_append, execIdent, hall.1, if_true, reduceIte,
              List.append_eq]
            rw [takeWhile_append_all isIdentChar ntl ('@' :: tag) hall.2,
              dropWhile_append_all isIdentChar ntl ('@' :: tag) hall.2]
            have h40 : isIdentChar '@' = false := by decide
            rw [List.takeWhile_cons, List.dropWhile_cons]
            simp only [h40, if_false, Bool.false_eq_true, reduceIte, List.append_nil]
            rw [takeWhile_all_eq _ tag htagall]
            simp [htagne]

/-- C1 counterexample: the segment "A-b" does not match the identifier
pattern as a whole, yet the unanchored regex matches inside it and
parsing succeeds with moduleName "-b" instead of throwing. -/
theorem parseSegment0_claim_cex :
    specSeg0Pattern "A-b" = false ∧
    parseSegment0 "A-b" = .ok ("-b", none) := by
  constructor
  · rfl
  · rfl

theorem parseSegment0_amended_witness :
    parseSegment0 "mod@v1" = .ok ("mod", some "v1") := by
  have h := (parseSegment0_amended "mod@v1").2 (by decide)
  simpa using h

theorem validDot_of_decomp (xs : List Char) (p : Char) (ys : List Char)
    (hp : isLineTerm p = false) (hys : ys ≠ [])
    (hall : ys.all (fun c => !isLineTerm c) = true) :
    validDot (xs ++ p :: '.' :: ys) (xs.length + 1) = true := by
  have hyspos : 0 < ys.length := List.length_pos.mpr hys
  have h2 : xs.length + 1 + 1 < (xs ++ p :: '.' :: ys).length := by
    simp only [List.length_append, List.length_cons]
    omega
  have h3 : (xs ++ p :: '.' :: ys).getD (xs.length + 1) ' ' = '.' := by
    rw [show xs ++ p :: '.' :: ys = (xs ++ [p]) ++ '.' :: ys by simp]
    rw [List.getD_append_right _ _ _ _ (by simp)]
    simp
  have h4 : (xs ++ p :: '.' :: ys).getD (xs.length + 1 - 1) ' ' = p := by
    simp only [Nat.add_sub_cancel]
    rw [List.getD_append_right _ _ _ _ (by simp)]
    simp
  have h5 : (xs ++ p :: '.' :: ys).drop (xs.length + 1 + 1) = ys := by
    rw [show xs ++ p :: '.' :: ys = (xs ++ [p, '.']) ++ ys by simp]
    rw [show xs.length + 1 + 1 = (xs ++ [p, '.']).length by simp]
    exact List.drop_left _ _
  unfold validDot
  rw [h3, h4, h5]
  simp only [List.length_append, List.length_cons] at h2
  simp [hp, hall]
  omega

theorem decomp_of_validDot (cs : List Char) (i : Nat)
    (h : validDot cs i = true) : HasExtension cs := by
  unfold validDot at h
  simp only [Bool.and_eq_true, bne_iff_ne, ne_eq, decide_eq_true_eq,
    beq_iff_eq, Bool.not_eq_true'] at h
  obtain ⟨⟨⟨⟨hi0, hilen⟩, hdot⟩, hpre⟩, hsuf⟩ := h
  have hi1 : i - 1 < cs.length := by omega
  have hii : i < cs.length := by omega
  refine ⟨cs.take (i - 1), cs.getD (i - 1) ' ', cs.drop (i + 1), ?_, hpre, ?_, hsuf⟩
  · conv_lhs => rw [← List.take_append_drop (i - 1) cs]
    congr 1
    rw [List.drop_eq_getElem_cons hi1, ← List.getD_eq_getElem cs ' ' hi1]
    congr 1
    rw [show i - 1 + 1 = i by omega]
    rw [List.drop_eq_getElem_cons hii, ← List.getD_eq_getElem cs ' ' hii, hdot]
  · intro hnil
    rw [List.drop_eq_nil_iff] at hnil
    omega

theorem getLast_filter_range (p : Nat → Bool) :
    ∀ (n i0 : Nat), p i0 = true → (∀ j, i0 < j → p j = false) → i0 < n →
      ((List.range n).filter p).getLast? = some i0
  | 0, i0, _, _, hlt => absurd hlt (by omega)
  | n + 1, i0, hp, hmax, hlt => by
      rw [List.range_succ, List.filter_append]
      rcases Nat.lt_or_ge i0 n with hn | hn
      · have hpn : p n = false := hmax n hn
        simp only [List.filter_cons, List.filter_nil, hpn, Bool.false_eq_true,
          if_false, ite_false, List.append_nil]
        exact getLast_filter_range p n i0 hp hmax hn
      · have hi0n : i0 = n := by omega
        subst hi0n
        simp only [List.filter_cons, List.filter_nil, hp, if_true]
        exact List.getLast?_concat _

theorem extIdx_none_iff (cs : List Char) :
    extIdx cs = none ↔ ∀ i, validDot cs i = false := by
  unfold extIdx
  rw [List.getLast?_eq_none_iff, List.filter_eq_nil_iff]
  constructor
  · intro h i
    by_cases hi : i < cs.length
    · have := h i (List.mem_range.mpr hi)
      simpa using this
    · cases hvd : validDot cs i with
      | false => rfl
      | true =>
          exfalso
          unfold validDot at hvd
          simp only [Bool.and_eq_true, decide_eq_true_eq] at hvd
          omega
  · intro h i _
    simp [h i]

theorem extIdx_some (cs : List Char) (i0 : Nat) (hp : validDot cs i0 = true)
    (hmax : ∀ j, i0 < j → validDot cs j = false) : extIdx cs = some i0 := by
  have hi0 : i0 < cs.length := by
    unfold validDot at hp
    simp only [Bool.and_eq_true, decide_eq_true_eq] at hp
    omega
  unfold extIdx
  exact getLast_filter_range _ _ _ hp hmax hi0

/-- C2 (amended): `getContentType` throws exactly when the name has no
dot that is both preceded by a character and followed by a nonempty
extension (not merely when it contains no dot at all); otherwise the
extension after the last such dot selects the JavaScript, TypeScript or
plain-text MIME type. -/
theorem getContentType_amended (name : String) :
    ((∃ e, getContentType name = .error e) ↔ ¬ HasExtension name.data) ∧
    (∀ xs p ys, name.data = xs ++ p :: '.' :: ys → isLineTerm p = false →
      ys ≠ [] → ys.all (fun c => !isLineTerm c) = true → '.' ∉ ys →
      getContentType name = .ok (contentTypeOf (String.mk ys))) := by
  constructor
  · constructor
    · rintro ⟨e, he⟩ hext
      obtain ⟨xs, p, ys, hdec, hp, hys, hall⟩ := hext
      unfold getContentType at he
      cases hex : extIdx name.data with
      | some i => rw [hex] at he; exact absurd he (by simp)
      | none =>
          have hvd := validDot_of_decomp xs p ys hp hys hall
          rw [← hdec] at hvd
          rw [(extIdx_none_iff name.data).mp hex (xs.length + 1)] at hvd
          exact absurd hvd (by simp)
    · intro hno
      cases hex : extIdx name.data with
      | none => exact ⟨.typeError, by unfold getContentType; rw [hex]⟩
      | some i =>
          exfalso
          apply hno
          unfold extIdx at hex
          have hmem := List.mem_of_mem_getLast? hex
          exact decomp_of_validDot _ i (List.mem_filter.mp hmem).2
  · intro xs p ys hdec hp hys hall hdot
    have hvd := validDot_of_decomp xs p ys hp hys hall
    rw [← hdec] at hvd
    have hmax : ∀ j, xs.length + 1 < j → validDot name.data j = false := by
      intro j hj
      cases hvj : validDot name.data j with
      | false => rfl
      | true =>
          exfalso
          unfold validDot at hvj
          simp only [Bool.and_eq_true, decide_eq_true_eq, beq_iff_eq] at hvj
          obtain ⟨⟨⟨⟨-, hjlen⟩, hjdot⟩, -⟩, -⟩ := hvj
          have hshape : name.data = (xs ++ [p, '.']) ++ ys := by rw [hdec]; simp
          have hge : (xs ++ [p, '.']).length ≤ j := by simp; omega
          rw [hshape, List.getD_append_right _ _ _ _ hge] at hjdot
          have hjys : j - (xs ++ [p, '.']).length < ys.length := by
            rw [hshape] at hjlen
            simp only [List.length_append, List.length_cons, List.length_nil] at hjlen ⊢
            omega
          rw [List.getD_eq_getElem ys ' ' hjys] at hjdot
          exact hdot (hjdot ▸ List.getElem_mem hjys)
    have hext := extIdx_some name.data (xs.length + 1) hvd hmax
    unfold getContentType
    rw [hext]
    have hdrop : name.data.drop (xs.length + 1 + 1) = ys := by
      rw [hdec, show xs ++ p :: '.' :: ys = (xs ++ [p, '.']) ++ ys by simp,
        show xs.length + 1 + 1 = (xs ++ [p, '.']).length by simp]
      exact List.drop_left _ _
    show Except.ok (contentTypeOf (String.mk (name.data.drop (xs.length + 1 + 1)))) =
      Except.ok (contentTypeOf (String.mk ys))
    rw [hdrop]

/-- C2 counterexample: the name "x." contains a dot, yet
`getContentType` throws, refuting that it fails exactly on names with
no dot. -/
theorem getContentType_claim_cex :
    getContentType "x." = .error .typeError ∧ '.' ∈ "x.".data :=
  ⟨rfl, by decide⟩

theorem getContentType_amended_witness :
    getContentType "x.js" = .ok "application/javascript" := by
  have h := (getContentType_amended "x.js").2 [] 'x' ['j', 's']
    (by decide) (by decide) (by decide) (by decide) (by decide)
  simpa using h

end Registry
